import Mathlib

/-!
Shallow embedding of `mir_eval/sonify.py` and verification of its
specification claims.

Conventions used throughout this development:
* Python/numpy floating point numbers carrying exact annotation data
  (times, magnitudes, frequencies, thresholds) are modelled as `ℚ`;
  synthesized audio samples are modelled as `ℝ`.
* The periodic synthesis function (`function=np.sin` in the source) is an
  arbitrary `φ : ℝ → ℝ`; theorems that need it 2π-periodic say so.
* numpy arrays are `List`s; a 2-D `gram` is a list of rows.
* Fallible code paths (shape-check `ValueError`s, empty reductions,
  index/broadcast errors) are an `Except SonifyError` result.
* `np.finfo(dtype).tiny` (the smallest positive normal float) is modelled
  by exact positivity `0 < peak`, the real-number analogue of the test
  `peak >= tiny`.
-/

open Real Function List

/-- Errors raised by `time_frequency` (all of them are `ValueError`s or
`IndexError`s in numpy; we keep the distinct sources apart). -/
inductive SonifyError : Type
  /-- the explicit shape-compatibility `ValueError`s at sonify.py lines 126-134 -/
  | shapeMismatch : SonifyError
  /-- numpy's "zero-size array to reduction operation" `ValueError`
  (`np.max`/`np.min` on an empty array) -/
  | emptyReduction : SonifyError
  /-- indexing a missing row of `signal` -/
  | indexError : SonifyError
  /-- a length mismatch in `output[:] += wave[:len(signal_n)] * signal_n`
  (numpy broadcast error), or an empty/negative convolution window -/
  | broadcastError : SonifyError
deriving DecidableEq, Repr

/-- The `times` argument of `time_frequency`: either a 1-D array of
timestamps or a 2-D array of `(start, end)` intervals. -/
inductive TimesInput : Type
  | stamps : List ℚ → TimesInput
  | ivals : List (ℚ × ℚ) → TimesInput
deriving DecidableEq

/-! ### Periodic waveform generator (`_fast_synthesize`, sonify.py 215-244) -/

/-- Round-half-to-even on `ℚ`, the rounding rule of `np.round`. -/
def roundHalfEven (q : ℚ) : ℤ :=
  if q - ⌊q⌋ < 1/2 then ⌊q⌋
  else if (1:ℚ)/2 < q - ⌊q⌋ then ⌊q⌋ + 1
  else if 2 ∣ ⌊q⌋ then ⌊q⌋ else ⌊q⌋ + 1

/-- Model of `np.round(frequency, n_dec)`: quantize to `n_dec` decimal
places (sonify.py line 222). -/
def npRound (q : ℚ) (ndec : ℕ) : ℚ := (roundHalfEven (q * 10 ^ ndec) : ℚ) / 10 ^ ndec

/-- Model of `n_samples = int(10.0**n_dec * fs)`: the length of the
precomputed cycle (sonify.py line 229). -/
def cycleLen (ndec fs : ℕ) : ℕ := 10 ^ ndec * fs

/-- Model of `short_signal = function(2 * pi * arange(n_samples) *
frequency / fs)` with the quantized frequency (sonify.py line 231). -/
noncomputable def shortCycle (φ : ℝ → ℝ) (ndec fs : ℕ) (f : ℚ) : List ℝ :=
  (List.range (cycleLen ndec fs)).map
    (fun (j : ℕ) => φ (2 * π * (j : ℝ) * ((npRound f ndec : ℚ) : ℝ) / (fs : ℝ)))

/-- Sample `i` of the virtually tiled signal returned by
`_fast_synthesize`: the `as_strided`/`flat` trick makes sample `i` of the
long buffer read `short_signal[i % n_samples]` (sonify.py 237-244). -/
noncomputable def waveSample (φ : ℝ → ℝ) (ndec fs : ℕ) (f : ℚ) (i : ℕ) : ℝ :=
  (shortCycle φ ndec fs f).getD (i % cycleLen ndec fs) 0

/-- Direct pointwise generation of the same periodic waveform: the
periodic function evaluated at `2π·i·f̂/fs` where `f̂` is the quantized
frequency — the claimed mathematical meaning of `_fast_synthesize`. -/
noncomputable def directWaveSample (φ : ℝ → ℝ) (ndec fs : ℕ) (f : ℚ) (i : ℕ) : ℝ :=
  φ (2 * π * (i : ℝ) * ((npRound f ndec : ℚ) : ℝ) / (fs : ℝ))

lemma cycleLen_pos {ndec fs : ℕ} (hfs : 0 < fs) : 0 < cycleLen ndec fs :=
  Nat.mul_pos (Nat.pos_pow_of_pos _ (by norm_num)) hfs

lemma shortCycle_getD (φ : ℝ → ℝ) (ndec fs : ℕ) (f : ℚ) {k : ℕ}
    (hk : k < cycleLen ndec fs) :
    (shortCycle φ ndec fs f).getD k 0
      = φ (2 * π * (k : ℝ) * ((npRound f ndec : ℚ) : ℝ) / (fs : ℝ)) := by
  simp [shortCycle, List.getD_eq_getElem?_getD, List.getElem?_range, hk]

/-- The quantized `npRound f ndec` is an integer multiple of `10⁻ⁿᵈᵉᶜ`. -/
lemma npRound_den (f : ℚ) (ndec : ℕ) :
    ((npRound f ndec : ℚ) : ℝ) = (roundHalfEven (f * 10 ^ ndec) : ℝ) / 10 ^ ndec := by
  unfold npRound
  push_cast
  ring

/-- C1. The strided/tiled output of `_fast_synthesize` agrees with direct
pointwise generation: because the quantized frequency `f̂ = z/10^n_dec`
makes the `10^n_dec * fs`-sample cycle contain exactly `z` whole periods,
`cycle[i % cycleLen]` equals `φ(2π·i·f̂/fs)` for every sample index `i`,
so there is no phase discontinuity at any tile boundary. -/
theorem fast_synthesize_eq_pointwise (φ : ℝ → ℝ) (ndec fs : ℕ) (f : ℚ) (i : ℕ)
    (hfs : 0 < fs) (hφ : Function.Periodic φ (2 * π)) :
    waveSample φ ndec fs f i = directWaveSample φ ndec fs f i := by
  have hL : 0 < cycleLen ndec fs := cycleLen_pos hfs
  have hmod : i % cycleLen ndec fs < cycleLen ndec fs := Nat.mod_lt _ hL
  rw [waveSample, shortCycle_getD φ ndec fs f hmod, directWaveSample]
  set z : ℤ := roundHalfEven (f * 10 ^ ndec) with hz
  set d : ℕ := i / cycleLen ndec fs with hd
  set r : ℕ := i % cycleLen ndec fs with hr
  set k : ℤ := z * (d : ℤ) with hk
  have hfs' : (fs : ℝ) ≠ 0 := Nat.cast_ne_zero.mpr hfs.ne'
  have hten : ((10 : ℝ)) ^ ndec ≠ 0 := by positivity
  have key : 2 * π * (i : ℝ) * ((npRound f ndec : ℚ) : ℝ) / (fs : ℝ)
      = 2 * π * (r : ℝ) * ((npRound f ndec : ℚ) : ℝ) / (fs : ℝ)
        + (k : ℝ) * (2 * π) := by
    have hi : (i : ℝ) = (cycleLen ndec fs : ℝ) * (d : ℝ) + (r : ℝ) := by
      exact_mod_cast congrArg (Nat.cast (R := ℝ)) (Nat.div_add_mod i (cycleLen ndec fs)).symm
    have hcl : ((cycleLen ndec fs : ℕ) : ℝ) = 10 ^ ndec * fs := by
      unfold cycleLen; push_cast; ring
    rw [npRound_den, hi, hcl, hk]
    push_cast
    field_simp
    ring
  rw [key]
  exact ((hφ.int_mul k) _).symm

/-- Witness for `fast_synthesize_eq_pointwise` at a concrete input. -/
theorem fast_synthesize_eq_pointwise_witness :
    waveSample Real.sin 1 2 (3/2) 45 = directWaveSample Real.sin 1 2 (3/2) 45 :=
  fast_synthesize_eq_pointwise Real.sin 1 2 (3/2) 45 (by norm_num) Real.sin_periodic

/-! ### Envelope resampler (`interp1d(..., kind="previous")`, sonify.py 177-186) -/

/-- One row of scipy's `interp1d(times[:, 0] * fs, gram, kind="previous",
bounds_error=False, fill_value=(gram[:, 0], gram[:, -1]))` evaluated at a
query `q` (sonify.py 179-186).  Out-of-range queries take the first/last
magnitude (the fill values the source passes); an in-range query takes
`ys[searchsorted(xs, q, side="right") - 1]`, which over a sorted knot list
`xs` is the count of knots `≤ q`, minus one. -/
def interpPrev : List ℚ → List ℚ → ℚ → ℚ
  | [], _, _ => 0
  | x0 :: xs, mags, q =>
    if q < x0 then mags.headD 0
    else if (x0 :: xs).getLastD 0 < q then mags.getLastD 0
    else mags.getD ((x0 :: xs).countP (fun x => decide (x ≤ q)) - 1) 0

/-- The specification's description of the envelope: the value at sample
`q` is the magnitude of the latest interval whose start is `≤ q`; before
the first interval's start, the first interval's magnitude (and the last
filtered pair holds the last magnitude after the last start). -/
def specEnvelope (starts mags : List ℚ) (q : ℚ) : ℚ :=
  ((((starts.zip mags).filter (fun p => decide (p.1 ≤ q))).getLast?).map Prod.snd).getD
    (mags.headD 0)

lemma getLastD_congr {α : Type} {l : List α} (h : l ≠ []) (d d' : α) :
    l.getLastD d = l.getLastD d' := by
  rw [List.getLastD_eq_getLast?, List.getLastD_eq_getLast?,
    List.getLast?_eq_getLast_of_ne_nil h]
  rfl

lemma mem_le_getLastD :
    ∀ {l : List ℚ}, l.Sorted (· ≤ ·) → ∀ {x : ℚ}, x ∈ l → ∀ d, x ≤ l.getLastD d := by
  intro l
  induction l with
  | nil => intro _ x hx; cases hx
  | cons a l ih =>
    intro hs x hx d
    obtain ⟨ha, hs'⟩ := List.sorted_cons.mp hs
    rw [List.getLastD_cons]
    rcases List.mem_cons.mp hx with rfl | hx'
    · cases l with
      | nil => simp
      | cons b m => exact (ha b (by simp)).trans (ih hs' (by simp) x)
    · exact ih hs' hx' a

lemma zip_getLastD :
    ∀ (l1 : List ℚ) (l2 : List ℚ), l1.length = l2.length → ∀ d1 d2,
      (l1.zip l2).getLastD (d1, d2) = (l1.getLastD d1, l2.getLastD d2) := by
  intro l1
  induction l1 with
  | nil =>
    intro l2 h d1 d2
    cases l2 with
    | nil => rfl
    | cons b l2 => simp at h
  | cons a l1 ih =>
    intro l2 h d1 d2
    cases l2 with
    | nil => simp at h
    | cons b l2 =>
      simp only [List.zip_cons_cons, List.getLastD_cons]
      exact ih l2 (by simpa using h) a b

lemma interpPrev_eq_specEnvelope_aux :
    ∀ (starts : List ℚ), starts.Sorted (· ≤ ·) → ∀ (mags : List ℚ), starts ≠ [] →
      starts.length = mags.length → ∀ q, interpPrev starts mags q = specEnvelope starts mags q := by
  intro starts
  induction starts with
  | nil => intro _ mags hne; exact absurd rfl hne
  | cons x xs ih =>
    intro hs mags _ hlen q
    obtain ⟨ha, hs'⟩ := List.sorted_cons.mp hs
    cases mags with
    | nil => simp at hlen
    | cons m ms =>
      by_cases hq : q < x
      · -- before the first knot: nothing passes the filter
        have hfil : ((x :: xs).zip (m :: ms)).filter (fun p => decide (p.1 ≤ q)) = [] := by
          apply List.filter_eq_nil_iff.mpr
          rintro ⟨a, b⟩ hp
          have h1 : a ∈ x :: xs := (List.of_mem_zip hp).1
          have hxa : x ≤ a := by
            rcases List.mem_cons.mp h1 with rfl | h1'
            · exact le_refl a
            · exact ha a h1'
          simp only [decide_eq_true_eq]
          exact fun hle => absurd (hxa.trans hle) (not_le.mpr hq)
        simp only [interpPrev, specEnvelope]
        rw [if_pos hq, hfil]
        rfl
      · have hxq : x ≤ q := not_lt.mp hq
        by_cases hlast : (x :: xs).getLastD 0 < q
        · -- after the last knot: everything passes the filter
          have hall : ∀ p ∈ (x :: xs).zip (m :: ms), (fun p => decide (p.1 ≤ q)) p = true := by
            rintro ⟨a, b⟩ hp
            have h1 : a ∈ x :: xs := (List.of_mem_zip hp).1
            simp only [decide_eq_true_eq]
            exact (mem_le_getLastD hs h1 0).trans hlast.le
          have hfil : ((x :: xs).zip (m :: ms)).filter (fun p => decide (p.1 ≤ q))
              = (x :: xs).zip (m :: ms) := List.filter_eq_self.mpr hall
          have hzne : ((x :: xs).zip (m :: ms)) ≠ [] := by
            simp [List.zip_cons_cons]
          have hgl : ((x :: xs).zip (m :: ms)).getLast?
              = some ((x :: xs).getLastD 0, (m :: ms).getLastD 0) := by
            rw [← zip_getLastD _ _ hlen 0 0, List.getLastD_eq_getLast?,
              List.getLast?_eq_getLast_of_ne_nil hzne]
            rfl
          simp only [interpPrev, specEnvelope]
          rw [if_neg hq, if_pos hlast, hfil, hgl]
          rfl
        · cases xs with
          | nil =>
            cases ms with
            | nil =>
              have hc : [x].countP (fun a => decide (a ≤ q)) = 1 := by
                simp [List.countP_cons, hxq]
              have hconsf : ([x].zip [m]).filter (fun p => decide (p.1 ≤ q)) = [(x, m)] := by
                simp [List.zip_cons_cons, List.filter_cons, hxq]
              simp only [interpPrev, specEnvelope]
              rw [if_neg hq, if_neg hlast, hc, hconsf]
              rfl
            | cons m1 ms' => simp at hlen
          | cons x1 xs' =>
            cases ms with
            | nil => simp at hlen
            | cons m1 ms' =>
              by_cases hq1 : q < x1
              · -- only the head knot is ≤ q
                have hfail : ∀ a ∈ x1 :: xs', ¬ a ≤ q := by
                  intro a hmem
                  have hx1a : x1 ≤ a := by
                    rcases List.mem_cons.mp hmem with rfl | h'
                    · exact le_refl a
                    · exact (List.sorted_cons.mp hs').1 a h'
                  exact fun hle => absurd (hx1a.trans hle) (not_le.mpr hq1)
                have hcnt : (x1 :: xs').countP (fun a => decide (a ≤ q)) = 0 :=
                  List.countP_eq_zero.mpr (by intro a hmem; simpa using hfail a hmem)
                have hc : (x :: x1 :: xs').countP (fun a => decide (a ≤ q)) = 1 := by
                  simp [List.countP_cons, hcnt, hxq]
                have hnx1 : ¬ x1 ≤ q := hfail x1 (by simp)
                have hfilT : (xs'.zip ms').filter (fun p => decide (p.1 ≤ q)) = [] := by
                  apply List.filter_eq_nil_iff.mpr
                  rintro ⟨a, b⟩ hp
                  simpa using hfail a (List.mem_cons_of_mem x1 (List.of_mem_zip hp).1)
                have hconsf : (((x :: x1 :: xs').zip (m :: m1 :: ms')).filter
                    (fun p => decide (p.1 ≤ q))) = [(x, m)] := by
                  simp [List.zip_cons_cons, List.filter_cons, hxq, hnx1, hfilT]
                simp only [interpPrev, specEnvelope]
                rw [if_neg hq, if_neg hlast, hc, hconsf]
                rfl
              · -- the tail also reaches q: reduce to the tail lists
                have hx1q : x1 ≤ q := not_lt.mp hq1
                have hlen' : (x1 :: xs').length = (m1 :: ms').length := by simpa using hlen
                have htne : (x1 :: xs') ≠ [] := by simp
                have hlast2 : ¬ (x1 :: xs').getLastD 0 < q := by
                  intro hcon
                  apply hlast
                  rw [List.getLastD_cons, getLastD_congr htne x 0]
                  exact hcon
                have hcpos : 0 < (x1 :: xs').countP (fun a => decide (a ≤ q)) :=
                  List.countP_pos_iff.mpr ⟨x1, by simp, by simpa using hx1q⟩
                have hL : interpPrev (x :: x1 :: xs') (m :: m1 :: ms') q
                    = interpPrev (x1 :: xs') (m1 :: ms') q := by
                  have hc : (x :: x1 :: xs').countP (fun a => decide (a ≤ q))
                      = (x1 :: xs').countP (fun a => decide (a ≤ q)) + 1 := by
                    simp [List.countP_cons, hxq]
                  have hpred : (x1 :: xs').countP (fun a => decide (a ≤ q))
                      = ((x1 :: xs').countP (fun a => decide (a ≤ q)) - 1) + 1 :=
                    (Nat.succ_pred_eq_of_pos hcpos).symm
                  simp only [interpPrev]
                  rw [if_neg hq, if_neg hq1, if_neg hlast, if_neg hlast2, hc,
                    Nat.add_sub_cancel]
                  conv_lhs => rw [hpred]
                  rw [List.getD_cons_succ]
                have hR : specEnvelope (x :: x1 :: xs') (m :: m1 :: ms') q
                    = specEnvelope (x1 :: xs') (m1 :: ms') q := by
                  have hmemf : (x1, m1) ∈ ((x1 :: xs').zip (m1 :: ms')).filter
                      (fun p => decide (p.1 ≤ q)) := by
                    apply List.mem_filter.mpr
                    exact ⟨by simp [List.zip_cons_cons], by simpa using hx1q⟩
                  have hcons : ((x :: x1 :: xs').zip (m :: m1 :: ms')).filter
                      (fun p => decide (p.1 ≤ q))
                      = (x, m) :: ((x1 :: xs').zip (m1 :: ms')).filter
                          (fun p => decide (p.1 ≤ q)) := by
                    simp [List.zip_cons_cons, List.filter_cons, hxq]
                  cases hfs : ((x1 :: xs').zip (m1 :: ms')).filter (fun p => decide (p.1 ≤ q)) with
                  | nil => rw [hfs] at hmemf; simp at hmemf
                  | cons y ys =>
                    simp only [specEnvelope]
                    rw [hcons, hfs, List.getLast?_cons_cons,
                      List.getLast?_eq_getLast_of_ne_nil (l := y :: ys) (by simp)]
                    rfl
                rw [hL, hR]
                exact ih hs' (m1 :: ms') htne hlen' q

/-- C3. For a sorted knot list with more than one surviving interval, the
per-sample envelope computed by the source's `kind="previous"`
interpolation with `(gram[:, 0], gram[:, -1])` fill values equals the
spec's description: the magnitude of the latest interval whose start is
`≤ q`, the first magnitude before the first start, and the last magnitude
after the last start. -/
theorem envelope_resampler_eq_spec (starts mags : List ℚ) (q : ℚ)
    (hs : starts.Sorted (· ≤ ·)) (h2 : 1 < starts.length)
    (hlen : starts.length = mags.length) :
    interpPrev starts mags q = specEnvelope starts mags q := by
  have hne : starts ≠ [] := by
    intro h
    rw [h] at h2
    simp at h2
  exact interpPrev_eq_specEnvelope_aux starts hs mags hne hlen q

/-- Witness for `envelope_resampler_eq_spec` at a concrete input. -/
theorem envelope_resampler_eq_spec_witness :
    interpPrev [0, 2, 4] [5, 7, 9] 3 = specEnvelope [0, 2, 4] [5, 7, 9] 3 :=
  envelope_resampler_eq_spec [0, 2, 4] [5, 7, 9] 3 (by decide) (by decide) (by decide)

/-! ### Convolution (`scipy.signal.convolve(..., mode="same")`, sonify.py 199-202) -/

/-- Full discrete convolution of two rational sequences. -/
def convFull (a b : List ℚ) : List ℚ :=
  (List.range (a.length + b.length - 1)).map
    (fun k => ∑ j ∈ Finset.range (k + 1), a.getD j 0 * b.getD (k - j) 0)

/-- Model of `scipy.signal.convolve(a, b, mode="same")`: the centre
slice of the full convolution, with the length of the first argument. -/
def convSame (a b : List ℚ) : List ℚ :=
  ((convFull a b).drop ((b.length - 1) / 2)).take a.length

lemma convFull_length (a b : List ℚ) : (convFull a b).length = a.length + b.length - 1 := by
  simp [convFull]

lemma convSame_length (a b : List ℚ) (hb : b ≠ []) : (convSame a b).length = a.length := by
  have hb1 : 1 ≤ b.length := List.length_pos.mpr hb
  simp only [convSame, List.length_take, List.length_drop, convFull_length]
  omega

/-! ### The `time_frequency` pipeline (sonify.py 64-212) -/

/-- Column count of a gram (list of rows): numpy's `gram.shape[1]` (rows
are uniform in a numpy 2-D array; this model reads the head row). -/
def gcols (g : List (List ℚ)) : ℕ := (g.headD []).length

/-- Model of `np.hstack((times[:-1, None], times[1:, None]))`:
consecutive intervals derived from a 1-D timestamp array (sonify.py
line 113). -/
def toIvals (ts : List ℚ) : List (ℚ × ℚ) := ts.zip ts.tail

/-- All scalar entries of a `(k, 2)` interval array, in row order, for
the `np.min`/`np.max` reductions the source performs on `times`. -/
def ivalVals : List (ℚ × ℚ) → List ℚ
  | [] => []
  | p :: l => p.1 :: p.2 :: ivalVals l

/-- Model of `np.min` of a nonempty 1-D rational array (callers guard
the empty array, where numpy raises its empty-reduction `ValueError`). -/
def listMinD : List ℚ → ℚ
  | [] => 0
  | x :: xs => xs.foldl min x

/-- Model of `np.max` of a nonempty 1-D rational array (callers guard
the empty array). -/
def listMaxD : List ℚ → ℚ
  | [] => 0
  | x :: xs => xs.foldl max x

/-- Model of `last_time_in_secs = float(length) / fs` (sonify.py 121). -/
def lastTimeQ (fs len : ℕ) : ℚ := (len : ℚ) / (fs : ℚ)

/-- The overlap test `times[:, 1] >= 0 and times[:, 0] <= last_time`
(sonify.py line 155). -/
def survives (lastT : ℚ) (p : ℚ × ℚ) : Bool := decide (0 ≤ p.2) && decide (p.1 ≤ lastT)

/-- Model of `np.clip(times[idx], 0, last_time)` on one interval
(sonify.py line 157). -/
def clipIval (lastT : ℚ) (p : ℚ × ℚ) : ℚ × ℚ :=
  (min (max p.1 0) lastT, min (max p.2 0) lastT)

/-- Selecting the entries of a row whose column survives the overlap
filter (`gram[:, idx]`, sonify.py line 156). -/
def maskFilter {α : Type} (mask : List Bool) (r : List α) : List α :=
  ((mask.zip r).filter (fun p => p.1)).map (fun p => p.2)

/-- The silence-interval stacking (sonify.py 136-152): a leading
`[0, times.min()]` interval when `times.min() > 0` and a trailing
`[times.max(), last_time]` interval when `times.max() < last_time`. -/
def stackIvals (lastT tmin tmax : ℚ) (v : List (ℚ × ℚ)) : List (ℚ × ℚ) :=
  (if 0 < tmin then [((0 : ℚ), tmin)] else []) ++ v
    ++ (if tmax < lastT then [(tmax, lastT)] else [])

/-- The matching zero-padding of one gram row (`np.pad(gram, ((0, 0),
padding))`, sonify.py line 151). -/
def padRow (lastT tmin tmax : ℚ) (r : List ℚ) : List ℚ :=
  (if 0 < tmin then [(0 : ℚ)] else []) ++ r ++ (if tmax < lastT then [(0 : ℚ)] else [])

/-- Model of `np.max(row)` for the threshold test (sonify.py 172).  The row
entries are already clamped to `≥ 0` when this is used (line 162 precedes
line 172), so folding from 0 is the exact maximum. -/
def rowMax (r : List ℚ) : ℚ := r.foldr max 0

/-- The envelope matrix (sonify.py 177-193): with more than one surviving
interval, each kept row is resampled by previous-neighbour interpolation
over `times[:, 0] * fs`; with a single surviving interval the source
builds `np.tile(gram[:, 0], (1, length))`, a single row holding the whole
first column repeated `length` times (shape `(1, R * length)`). -/
def tfSignal (len : ℕ) (starts : List ℚ) (nT : ℕ) (keptRows : List (List ℚ)) :
    List (List ℚ) :=
  if 1 < nT then
    keptRows.map (fun r => (List.range len).map (fun i => interpPrev starts r (i : ℚ)))
  else
    [(List.replicate len (keptRows.map (fun r => r.headD 0))).flatten]

/-- The body of `time_frequency` between the shape checks and the mixing
loop: silence padding (sonify.py 136-152), the overlap filter and
clipping (154-158), the non-negativity clamp (162), the early all-zero
return for an empty surviving interval set (166-169, the `none` result),
the threshold row selection (171-175) and the envelope matrix (177-193).
Otherwise returns the kept frequencies paired with the envelope matrix. -/
def tfBody (gram : List (List ℚ)) (freqs : List ℚ) (v : List (ℚ × ℚ)) (fs len : ℕ)
    (thr : ℚ) : Option (List ℚ × List (List ℚ)) :=
  let lastT := lastTimeQ fs len
  let tmin := listMinD (ivalVals v)
  let tmax := listMaxD (ivalVals v)
  let mask := (stackIvals lastT tmin tmax v).map (survives lastT)
  let tked := ((stackIvals lastT tmin tmax v).filter (survives lastT)).map (clipIval lastT)
  if tked.length = 0 then none
  else
    let g3 := gram.map
      (fun r => (maskFilter mask (padRow lastT tmin tmax r)).map (fun x => max x 0))
    let kept := (g3.zip freqs).filter (fun pr => decide (thr ≤ rowMax pr.1))
    some (kept.map Prod.snd,
      tfSignal len (tked.map (fun pr => pr.1 * (fs : ℚ))) tked.length (kept.map Prod.fst))

/-- The shape checks of `time_frequency` (sonify.py 126-134) followed by
`tfBody`.  `times.min()`/`times.max()` on an empty interval array
(sonify.py line 139) is numpy's empty-reduction error. -/
def tfPre2 (gram : List (List ℚ)) (freqs : List ℚ) (v : List (ℚ × ℚ)) (fs len : ℕ)
    (thr : ℚ) : Except SonifyError (Option (List ℚ × List (List ℚ))) :=
  if v.length ≠ gcols gram then .error .shapeMismatch
  else if freqs.length ≠ gram.length then .error .shapeMismatch
  else if v = [] then .error .emptyReduction
  else .ok (tfBody gram freqs v fs len thr)

/-- Timestamp conversion (sonify.py 109-115) and the conditional
trailing-interval pad (121-124), then the rest of the preparation.
`np.max(times)` on an empty derived interval array (line 124) is numpy's
empty-reduction error. -/
def tfPre (gram : List (List ℚ)) (freqs : List ℚ) (tin : TimesInput) (fs len : ℕ)
    (thr : ℚ) : Except SonifyError (Option (List ℚ × List (List ℚ))) :=
  match tin with
  | .ivals v => tfPre2 gram freqs v fs len thr
  | .stamps ts =>
    if (toIvals ts).length ≠ gcols gram then
      if toIvals ts = [] then .error .emptyReduction
      else tfPre2 gram freqs
        (toIvals ts ++ [(listMaxD (ivalVals (toIvals ts)), lastTimeQ fs len)]) fs len thr
    else tfPre2 gram freqs (toIvals ts) fs len thr

/-- Model of `period = 2 * int(fs / frequency)` (sonify.py 200).  `int()`
truncation equals the floor for the positive quotients used; a zero or
negative quotient yields an empty boxcar, which the mixing step rejects
exactly where numpy/scipy raise. -/
def periodOf (fs : ℕ) (f : ℚ) : ℕ := 2 * (⌊(fs : ℚ) / f⌋).toNat

/-- The per-row mixing loop (sonify.py 195-205): synthesize the waveform,
smooth the envelope row with the two-period boxcar, and accumulate
`wave[:len(signal_n)] * signal_n` into the output buffer.  A missing
`signal` row is numpy's `IndexError`; a smoothed-envelope length that
differs from the output length is numpy's broadcast error. -/
noncomputable def mixLoop (φ : ℝ → ℝ) (ndec fs len : ℕ) :
    List ℚ → List (List ℚ) → List ℝ → Except SonifyError (List ℝ)
  | [], _, out => .ok out
  | _ :: _, [], _ => .error .indexError
  | f :: fr, s :: sr, out =>
    let sn := convSame s (List.replicate (periodOf fs f) ((periodOf fs f : ℚ)⁻¹))
    if sn.length = len then
      mixLoop φ ndec fs len fr sr
        ((List.range len).map
          (fun i => out.getD i 0 + waveSample φ ndec fs f i * ((sn.getD i 0 : ℚ) : ℝ)))
    else .error .broadcastError

/-- Model of `np.abs(output).max()` over the sample list (0 for the empty list;
the source raises on an empty buffer before this is reached). -/
noncomputable def maxAbs (l : List ℝ) : ℝ := l.foldr (fun x m => max |x| m) 0

/-- The final normalization (sonify.py 207-210): divide by the peak when
it is at least the smallest representable positive magnitude (in this
exact model: when it is positive); otherwise leave the buffer as is. -/
noncomputable def normalizeBuf (l : List ℝ) : List ℝ :=
  if 0 < maxAbs l then l.map (fun x => x / maxAbs l) else l

/-- Shallow embedding of `time_frequency(gram, frequencies, times, fs,
function, length, n_dec, threshold)` (sonify.py 64-212), with the output
length supplied explicitly.  `np.abs(output).max()` on a zero-length
buffer is numpy's empty-reduction error. -/
noncomputable def timeFrequency (φ : ℝ → ℝ) (gram : List (List ℚ)) (freqs : List ℚ)
    (tin : TimesInput) (fs len ndec : ℕ) (thr : ℚ) : Except SonifyError (List ℝ) :=
  match tfPre gram freqs tin fs len thr with
  | .error e => .error e
  | .ok none => .ok (List.replicate len 0)
  | .ok (some (kf, sig)) =>
    match mixLoop φ ndec fs len kf sig (List.replicate len 0) with
    | .error e => .error e
    | .ok out => if out.isEmpty then .error .emptyReduction else .ok (normalizeBuf out)

/-! ### `pitch_contour` (sonify.py 247-317) -/

/-- One row of scipy's `interp1d(xs, ys, kind="linear", fill_value=0.0,
bounds_error=False)` evaluated at a query `q` (sonify.py 290-314, with the
default `kind="linear"`).  Out-of-range queries give the fill value `0`;
an in-range query interpolates on the segment
`[xs[ind-1], xs[ind]]` with `ind = clip(searchsorted(xs, q), 1, n-1)`. -/
noncomputable def interpLin : List ℚ → List ℝ → ℚ → ℝ
  | [], _, _ => 0
  | x0 :: xs, ys, q =>
    if q < x0 then 0
    else if (x0 :: xs).getLastD 0 < q then 0
    else
      let ind := min (max ((x0 :: xs).countP (fun x => decide (x < q))) 1)
        ((x0 :: xs).length - 1)
      (ys.getD (ind - 1) 0) + (ys.getD ind 0 - ys.getD (ind - 1) 0)
        * (((q - (x0 :: xs).getD (ind - 1) 0)
            / ((x0 :: xs).getD ind 0 - (x0 :: xs).getD (ind - 1) 0) : ℚ) : ℝ)

/-- Model of `2 * np.pi * np.maximum(frequencies, 0.0) / fs`: the per-knot angular
steps (sonify.py 285-292; `np.nan_to_num` has no counterpart for exact
rationals). -/
noncomputable def pcAngular (freqs : List ℚ) (fs : ℕ) : List ℝ :=
  freqs.map (fun f => 2 * π * ((max f 0 : ℚ) : ℝ) / (fs : ℝ))

/-- Sample `j` of `f_est`: the angular-step interpolator evaluated there
(sonify.py line 300). -/
noncomputable def pcStep (times freqs : List ℚ) (fs : ℕ) (j : ℕ) : ℝ :=
  interpLin (times.map (fun t => t * (fs : ℚ))) (pcAngular freqs fs) (j : ℚ)

/-- Model of `np.cumsum(f_est)[i]`: the accumulated phase up to and including
sample `i` (sonify.py line 317). -/
noncomputable def pcPhase (times freqs : List ℚ) (fs : ℕ) (i : ℕ) : ℝ :=
  ∑ j ∈ Finset.range (i + 1), pcStep times freqs fs j

/-- Sample `i` of `a_est`: all-ones when no amplitudes are supplied, else the
amplitude interpolator evaluated at sample `i` (sonify.py 302-314). -/
noncomputable def pcAmp (times : List ℚ) (amps : Option (List ℚ)) (fs : ℕ) (i : ℕ) : ℝ :=
  match amps with
  | none => 1
  | some a => interpLin (times.map (fun t => t * (fs : ℚ)))
      (a.map (fun x : ℚ => (x : ℝ))) (i : ℚ)

/-- Sample `i` of `pitch_contour(times, frequencies, fs, amplitudes,
function, length, kind="linear")`: `a_est * function(np.cumsum(f_est))`
(sonify.py line 317). -/
noncomputable def pitchContourSample (φ : ℝ → ℝ) (times freqs : List ℚ)
    (amps : Option (List ℚ)) (fs : ℕ) (i : ℕ) : ℝ :=
  pcAmp times amps fs i * φ (pcPhase times freqs fs i)

/-! ### `clicks` (sonify.py 15-61) -/

/-- The number of samples of the default click kernel:
`np.arange(fs * 0.1).size`, i.e. `⌈fs/10⌉` (sonify.py line 39). -/
def defaultClickLen (fs : ℕ) : ℕ := ⌈(fs : ℚ) / 10⌉₊

/-- Sample `j` of the default click kernel: a 1 kHz tone with an
exponential decay of time constant `fs * 0.01` samples (sonify.py
39-41). -/
noncomputable def defaultClick (fs : ℕ) (j : ℕ) : ℝ :=
  Real.sin (2 * π * (j : ℝ) * 1000 / (fs : ℝ)) * Real.exp (-(j : ℝ) / ((fs : ℝ) / 100))

/-- Model of `start = int(time * fs)` (sonify.py 51).  `int()` truncation
equals the floor for the nonnegative times handled here; a negative time
indexes from the end of the buffer in numpy and is outside this model
(theorems assume `0 ≤ t`). -/
def clickStart (fs : ℕ) (t : ℚ) : ℕ := ⌊t * (fs : ℚ)⌋₊

/-- Model of `int(times.max() * fs + click.shape[0] + 1)`: the default output
length (sonify.py 43-44); `listMaxQ`-style fold over the times. -/
def clicksDefaultLen (times : List ℚ) (fs ckLen : ℕ) : ℕ :=
  ⌊(times.foldr max (times.headD 0)) * (fs : ℚ) + ckLen + 1⌋₊

/-- The click-placement loop (sonify.py 48-61) over a zero buffer, as a
buffer-transformer on sample functions.  A click whose start is at or
past the end stops the loop; a click extending past the end writes its
truncated prefix and stops the loop; otherwise the click is written by
assignment (overwriting any earlier samples) and the loop continues. -/
noncomputable def placeClicks (fs : ℕ) (ck : ℕ → ℝ) (ckLen len : ℕ) :
    List ℚ → (ℕ → ℝ) → (ℕ → ℝ)
  | [], buf => buf
  | t :: rest, buf =>
    if len ≤ clickStart fs t then buf
    else if len ≤ clickStart fs t + ckLen then
      fun i => if clickStart fs t ≤ i ∧ i < len then ck (i - clickStart fs t) else buf i
    else
      placeClicks fs ck ckLen len rest
        (fun i => if clickStart fs t ≤ i ∧ i < clickStart fs t + ckLen
          then ck (i - clickStart fs t) else buf i)

/-- Model of `clicks(times, fs, click, length)` as a sample function over the
pre-allocated zero buffer (sonify.py 47-61). -/
noncomputable def clicksFun (fs : ℕ) (ck : ℕ → ℝ) (ckLen len : ℕ) (times : List ℚ) :
    ℕ → ℝ :=
  placeClicks fs ck ckLen len times (fun _ => 0)

/-! ### Claim theorems for `pitch_contour` (C6, C10) -/

lemma interpLin_two_const (a b : ℚ) (w : ℝ) (q : ℚ) :
    interpLin [a, b] [w, w] q = if a ≤ q ∧ q ≤ b then w else 0 := by
  simp only [interpLin]
  have hlast : ([a, b] : List ℚ).getLastD 0 = b := by
    simp [List.getLastD_cons]
  by_cases hqa : q < a
  · rw [if_pos hqa, if_neg (fun h => absurd h.1 (not_le.mpr hqa))]
  · by_cases hqb : b < q
    · rw [if_neg hqa, hlast, if_pos hqb,
        if_neg (fun h => absurd h.2 (not_le.mpr hqb))]
    · rw [if_neg hqa, hlast, if_neg hqb]
      have hind : min (max (([a, b] : List ℚ).countP (fun x => decide (x < q))) 1)
          (([a, b] : List ℚ).length - 1) = 1 := by
        simp only [List.length_cons, List.length_nil]
        omega
      rw [hind]
      simp [not_lt.mp hqa, not_lt.mp hqb]

lemma pcStep_two (t0 t1 f : ℚ) (fs : ℕ) (hf : 0 ≤ f) (j : ℕ) :
    pcStep [t0, t1] [f, f] fs j
      = if t0 * (fs : ℚ) ≤ (j : ℚ) ∧ (j : ℚ) ≤ t1 * (fs : ℚ)
          then 2 * π * (f : ℝ) / (fs : ℝ) else 0 := by
  have hmax : max f 0 = f := max_eq_left hf
  simp only [pcStep, pcAngular, List.map_cons, List.map_nil, hmax]
  exact interpLin_two_const _ _ _ _

lemma pcAmp_two_ones (t0 t1 : ℚ) (fs : ℕ) (i : ℕ) :
    pcAmp [t0, t1] (some [1, 1]) fs i
      = if t0 * (fs : ℚ) ≤ (i : ℚ) ∧ (i : ℚ) ≤ t1 * (fs : ℚ) then 1 else 0 := by
  simp only [pcAmp, List.map_cons, List.map_nil, Rat.cast_one]
  exact interpLin_two_const _ _ _ _

lemma sum_ite_ge (c : ℕ) (w : ℝ) :
    ∀ n, (∑ j ∈ Finset.range n, if c ≤ j then w else 0) = ((n - c : ℕ) : ℝ) * w := by
  intro n
  induction n with
  | zero => simp
  | succ n ihn =>
    rw [Finset.sum_range_succ, ihn]
    by_cases h : c ≤ n
    · rw [if_pos h]
      have hn : n + 1 - c = (n - c) + 1 := by omega
      rw [hn]
      push_cast
      ring
    · rw [if_neg h]
      have hn1 : n - c = 0 := by omega
      have hn2 : n + 1 - c = 0 := by omega
      rw [hn1, hn2]
      simp

lemma sum_ite_between (c d n : ℕ) (w : ℝ) (hdn : d + 1 ≤ n) :
    (∑ j ∈ Finset.range n, if c ≤ j ∧ j ≤ d then w else 0)
      = ((d + 1 - c : ℕ) : ℝ) * w := by
  have hsub : Finset.range (d + 1) ⊆ Finset.range n := Finset.range_subset.mpr hdn
  have hvan : ∀ x ∈ Finset.range n, x ∉ Finset.range (d + 1) →
      (if c ≤ x ∧ x ≤ d then w else 0) = 0 := by
    intro x _ hx
    have : ¬ x ≤ d := by
      intro h
      exact hx (Finset.mem_range.mpr (Nat.lt_succ_of_le h))
    rw [if_neg (fun hh => this hh.2)]
  calc (∑ j ∈ Finset.range n, if c ≤ j ∧ j ≤ d then w else 0)
      = ∑ j ∈ Finset.range (d + 1), if c ≤ j ∧ j ≤ d then w else 0 :=
        (Finset.sum_subset hsub hvan).symm
    _ = ∑ j ∈ Finset.range (d + 1), if c ≤ j then w else 0 := by
        apply Finset.sum_congr rfl
        intro j hj
        have hjd : j ≤ d := Nat.lt_succ_iff.mp (Finset.mem_range.mp hj)
        by_cases h : c ≤ j
        · rw [if_pos ⟨h, hjd⟩, if_pos h]
        · rw [if_neg (fun hh => h hh.1), if_neg h]
    _ = ((d + 1 - c : ℕ) : ℝ) * w := sum_ite_ge c w (d + 1)

/-- C6 (amended).  For `pitch_contour` with a constant frequency `f` and
constant amplitude `1` supplied over `[t0, t1]` (two knots, the default
linear interpolation): outside the span `[t0*fs, t1*fs]` every sample is
`0`; inside the span, sample `i` is `φ` of `(i + 1 - ⌈t0*fs⌉)` angular
steps `2πf/fs` — the phase accumulates from the first in-span sample
(inclusive), so the tone carries a start-dependent phase offset rather
than equalling `sin(2πf·i/fs)`. -/
theorem pitch_contour_const_segment (φ : ℝ → ℝ) (t0 t1 f : ℚ) (fs i : ℕ)
    (h0 : 0 ≤ t0) (h01 : t0 < t1) (hfs : 0 < fs) (hf : 0 ≤ f) :
    (((i : ℚ) < t0 * (fs : ℚ) ∨ t1 * (fs : ℚ) < (i : ℚ)) →
      pitchContourSample φ [t0, t1] [f, f] (some [1, 1]) fs i = 0)
    ∧ (t0 * (fs : ℚ) ≤ (i : ℚ) → (i : ℚ) ≤ t1 * (fs : ℚ) →
      pitchContourSample φ [t0, t1] [f, f] (some [1, 1]) fs i
        = φ (((i + 1 - ⌈t0 * (fs : ℚ)⌉₊ : ℕ) : ℝ) * (2 * π * (f : ℝ) / (fs : ℝ)))) := by
  constructor
  · intro hout
    have hamp : pcAmp [t0, t1] (some [1, 1]) fs i = 0 := by
      rw [pcAmp_two_ones]
      rcases hout with h | h
      · exact if_neg (fun hh => absurd hh.1 (not_le.mpr h))
      · exact if_neg (fun hh => absurd hh.2 (not_le.mpr h))
    rw [pitchContourSample, hamp, zero_mul]
  · intro hin1 hin2
    have hamp : pcAmp [t0, t1] (some [1, 1]) fs i = 1 := by
      rw [pcAmp_two_ones, if_pos ⟨hin1, hin2⟩]
    have hphase : pcPhase [t0, t1] [f, f] fs i
        = ((i + 1 - ⌈t0 * (fs : ℚ)⌉₊ : ℕ) : ℝ) * (2 * π * (f : ℝ) / (fs : ℝ)) := by
      rw [pcPhase]
      have hconv : ∀ j ∈ Finset.range (i + 1),
          pcStep [t0, t1] [f, f] fs j
            = if ⌈t0 * (fs : ℚ)⌉₊ ≤ j then 2 * π * (f : ℝ) / (fs : ℝ) else 0 := by
        intro j hj
        rw [pcStep_two t0 t1 f fs hf j]
        have hjb : (j : ℚ) ≤ t1 * (fs : ℚ) := by
          have hji : (j : ℚ) ≤ (i : ℚ) := by
            exact_mod_cast Nat.lt_succ_iff.mp (Finset.mem_range.mp hj)
          exact hji.trans hin2
        by_cases h : t0 * (fs : ℚ) ≤ (j : ℚ)
        · rw [if_pos ⟨h, hjb⟩, if_pos (Nat.ceil_le.mpr h)]
        · rw [if_neg (fun hh => h hh.1), if_neg (fun hh => h (Nat.ceil_le.mp hh))]
      rw [Finset.sum_congr rfl hconv, sum_ite_ge]
    rw [pitchContourSample, hamp, hphase, one_mul]

/-- Witness for `pitch_contour_const_segment` at a concrete input
(a sample after the span is silent). -/
theorem pitch_contour_const_segment_witness :
    pitchContourSample Real.sin [1/2, 1] [1, 1] (some [1, 1]) 4 5 = 0 :=
  (pitch_contour_const_segment Real.sin (1/2) 1 1 4 5 (by norm_num) (by norm_num)
    (by norm_num) (by norm_num)).1 (Or.inr (by norm_num))

/-- C6 (counterexample to the claim as stated).  At `t0 = 1/2`, `t1 = 1`,
`f = 1`, `fs = 4`, the in-span sample `i = 2` of the code's output is `1`
(the phase has accumulated exactly one step `π/2`), whereas the claimed
value `sin(2π·f·i/fs) = sin(π)` is `0` — an error of a full amplitude,
not a floating tolerance. -/
theorem pitch_contour_claimed_value_false :
    pitchContourSample Real.sin [1/2, 1] [1, 1] (some [1, 1]) 4 2 = 1
    ∧ Real.sin (2 * π * ((2 : ℕ) : ℝ) * 1 / 4) = 0 := by
  constructor
  · have hamp : pcAmp [1/2, 1] (some [1, 1]) 4 2 = 1 := by
      rw [pcAmp_two_ones, if_pos (by norm_num)]
    have hstep : ∀ j, pcStep [1/2, 1] [1, 1] 4 j
        = if (2 : ℚ) ≤ (j : ℚ) ∧ (j : ℚ) ≤ 4 then 2 * π * ((1 : ℚ) : ℝ) / ((4 : ℕ) : ℝ)
          else 0 := by
      intro j
      rw [pcStep_two (1/2) 1 1 4 (by norm_num) j]
      norm_num
    have hphase : pcPhase [1/2, 1] [1, 1] 4 2 = π / 2 := by
      rw [pcPhase, Finset.sum_range_succ, Finset.sum_range_succ, Finset.sum_range_one,
        hstep 0, hstep 1, hstep 2]
      norm_num
      ring
    rw [pitchContourSample, hamp, hphase, one_mul, Real.sin_pi_div_two]
  · have h : 2 * π * ((2 : ℕ) : ℝ) * 1 / 4 = π := by
      push_cast
      ring
    rw [h, Real.sin_pi]

/-- C10.  When no amplitudes are supplied, the amplitude estimate is the
constant `1` at every sample (there is no zero fill), so every sample
past the end of the time span equals `φ` of the final accumulated phase
`(⌊t1*fs⌋ + 1 - ⌈t0*fs⌉)·2πf/fs` — a constant, generally nonzero value —
rather than `0`. -/
theorem pitch_contour_no_amplitudes_tail (φ : ℝ → ℝ) (t0 t1 f : ℚ) (fs i : ℕ)
    (h0 : 0 ≤ t0) (h01 : t0 < t1) (hfs : 0 < fs) (hf : 0 ≤ f)
    (hpast : t1 * (fs : ℚ) < (i : ℚ)) :
    pcAmp [t0, t1] none fs i = 1
    ∧ pitchContourSample φ [t0, t1] [f, f] none fs i
        = φ (((⌊t1 * (fs : ℚ)⌋₊ + 1 - ⌈t0 * (fs : ℚ)⌉₊ : ℕ) : ℝ)
            * (2 * π * (f : ℝ) / (fs : ℝ))) := by
  have hb0 : (0 : ℚ) ≤ t1 * (fs : ℚ) := by
    have : (0 : ℚ) ≤ (fs : ℚ) := by positivity
    exact mul_nonneg (h0.trans h01.le) this
  refine ⟨rfl, ?_⟩
  have hfloor : ⌊t1 * (fs : ℚ)⌋₊ + 1 ≤ i + 1 := by
    have h1 : (⌊t1 * (fs : ℚ)⌋₊ : ℚ) ≤ t1 * (fs : ℚ) := Nat.floor_le hb0
    have h2 : (⌊t1 * (fs : ℚ)⌋₊ : ℚ) < (i : ℚ) := lt_of_le_of_lt h1 hpast
    have h3 : ⌊t1 * (fs : ℚ)⌋₊ < i := by exact_mod_cast h2
    omega
  have hphase : pcPhase [t0, t1] [f, f] fs i
      = ((⌊t1 * (fs : ℚ)⌋₊ + 1 - ⌈t0 * (fs : ℚ)⌉₊ : ℕ) : ℝ)
          * (2 * π * (f : ℝ) / (fs : ℝ)) := by
    rw [pcPhase]
    have hconv : ∀ j ∈ Finset.range (i + 1),
        pcStep [t0, t1] [f, f] fs j
          = if ⌈t0 * (fs : ℚ)⌉₊ ≤ j ∧ j ≤ ⌊t1 * (fs : ℚ)⌋₊
            then 2 * π * (f : ℝ) / (fs : ℝ) else 0 := by
      intro j _
      rw [pcStep_two t0 t1 f fs hf j]
      by_cases ha : t0 * (fs : ℚ) ≤ (j : ℚ)
      · by_cases hbj : (j : ℚ) ≤ t1 * (fs : ℚ)
        · rw [if_pos ⟨ha, hbj⟩, if_pos ⟨Nat.ceil_le.mpr ha, Nat.le_floor hbj⟩]
        · rw [if_neg (fun hh => hbj hh.2),
            if_neg (fun hh => hbj ((Nat.le_floor_iff hb0).mp hh.2))]
      · rw [if_neg (fun hh => ha hh.1), if_neg (fun hh => ha (Nat.ceil_le.mp hh.1))]
    rw [Finset.sum_congr rfl hconv, sum_ite_between _ _ _ _ hfloor]
  rw [pitchContourSample, hphase, pcAmp, one_mul]

/-- Witness for `pitch_contour_no_amplitudes_tail`: a concrete sample
after the span whose value is `sin(π/2) = 1 ≠ 0`. -/
theorem pitch_contour_no_amplitudes_tail_witness :
    pitchContourSample Real.sin [0, 1/8] [1, 1] none 4 1
      = Real.sin (((⌊(1/8 : ℚ) * ((4 : ℕ) : ℚ)⌋₊ + 1 - ⌈(0 : ℚ) * ((4 : ℕ) : ℚ)⌉₊ : ℕ) : ℝ)
          * (2 * π * ((1 : ℚ) : ℝ) / ((4 : ℕ) : ℝ)))
    ∧ pitchContourSample Real.sin [0, 1/8] [1, 1] none 4 1 ≠ 0 := by
  have h := (pitch_contour_no_amplitudes_tail Real.sin 0 (1/8) 1 4 1 (le_refl 0)
    (by norm_num) (by norm_num) (by norm_num) (by norm_num)).2
  refine ⟨h, ?_⟩
  rw [h]
  have hidx : (⌊(1/8 : ℚ) * ((4 : ℕ) : ℚ)⌋₊ + 1 - ⌈(0 : ℚ) * ((4 : ℕ) : ℚ)⌉₊ : ℕ) = 1 := by
    norm_num
  rw [hidx]
  have harg : ((1 : ℕ) : ℝ) * (2 * π * ((1 : ℚ) : ℝ) / ((4 : ℕ) : ℝ)) = π / 2 := by
    push_cast
    ring
  rw [harg, Real.sin_pi_div_two]
  norm_num

/-! ### Claim theorems for `clicks` (C8, C9) -/

lemma clicksFun_single (fs : ℕ) (ck : ℕ → ℝ) (ckLen len : ℕ) (t : ℚ) (i : ℕ) :
    clicksFun fs ck ckLen len [t] i
      = if clickStart fs t ≤ i ∧ i < min (clickStart fs t + ckLen) len then
          ck (i - clickStart fs t) else 0 := by
  by_cases h1 : len ≤ clickStart fs t
  · rw [clicksFun, placeClicks, if_pos h1, if_neg (by omega)]
  · by_cases h2 : len ≤ clickStart fs t + ckLen
    · rw [clicksFun, placeClicks, if_neg h1, if_pos h2, min_eq_right h2]
    · rw [clicksFun, placeClicks, if_neg h1, if_neg h2, placeClicks,
        min_eq_left (by omega)]

/-- C8.  `clicks([0.5], fs=8000)` with the default click kernel and the
default length `4801`: samples `0..3999` are zero, samples `4000..4799`
are the 800-sample default kernel, the remaining sample is zero; the
default kernel has `0.1*fs` samples and the default buffer length is
`max(times)*fs + click_size + 1`.  In general a single click at time
`t ≥ 0` starts at sample `⌊t*fs⌋`, is truncated at the buffer end, and
contributes nothing when its start is at or past the buffer end. -/
theorem clicks_default_placement :
    (∀ i, i < 4000 → clicksFun 8000 (defaultClick 8000) 800 4801 [(1 : ℚ)/2] i = 0)
    ∧ (∀ j, j < 800 → clicksFun 8000 (defaultClick 8000) 800 4801 [(1 : ℚ)/2] (4000 + j)
        = defaultClick 8000 j)
    ∧ (∀ i, 4800 ≤ i → clicksFun 8000 (defaultClick 8000) 800 4801 [(1 : ℚ)/2] i = 0)
    ∧ defaultClickLen 8000 = 800
    ∧ clicksDefaultLen [(1 : ℚ)/2] 8000 800 = 4801
    ∧ (∀ (times : List ℚ) (fs ckLen : ℕ),
        0 ≤ (times.foldr max (times.headD 0)) * (fs : ℚ) →
        clicksDefaultLen times fs ckLen
          = ⌊(times.foldr max (times.headD 0)) * (fs : ℚ)⌋₊ + ckLen + 1)
    ∧ (∀ (fs : ℕ) (ck : ℕ → ℝ) (ckLen len : ℕ) (t : ℚ), 0 ≤ t →
        (∀ i, i < clickStart fs t → clicksFun fs ck ckLen len [t] i = 0)
        ∧ (∀ i, clickStart fs t ≤ i → i < clickStart fs t + ckLen → i < len →
            clicksFun fs ck ckLen len [t] i = ck (i - clickStart fs t))
        ∧ (∀ i, clickStart fs t + ckLen ≤ i → clicksFun fs ck ckLen len [t] i = 0)
        ∧ (len ≤ clickStart fs t → ∀ i, clicksFun fs ck ckLen len [t] i = 0)) := by
  have hstart : clickStart 8000 ((1 : ℚ)/2) = 4000 := by
    norm_num [clickStart]
  refine ⟨?_, ?_, ?_, by norm_num [defaultClickLen], by norm_num [clicksDefaultLen], ?_, ?_⟩
  · intro i hi
    rw [clicksFun_single, hstart, if_neg (by omega)]
  · intro j hj
    rw [clicksFun_single, hstart, if_pos (by omega), Nat.add_sub_cancel_left]
  · intro i hi
    rw [clicksFun_single, hstart, if_neg (by omega)]
  · intro times fs ckLen hmax
    rw [clicksDefaultLen]
    have hcast : (times.foldr max (times.headD 0)) * (fs : ℚ) + (ckLen : ℚ) + 1
        = (times.foldr max (times.headD 0)) * (fs : ℚ) + ((ckLen + 1 : ℕ) : ℚ) := by
      push_cast
      ring
    rw [hcast, Nat.floor_add_nat hmax, Nat.add_assoc]
  · intro fs ck ckLen len t _
    refine ⟨?_, ?_, ?_, ?_⟩
    · intro i hi
      rw [clicksFun_single, if_neg (by omega)]
    · intro i hi1 hi2 hi3
      rw [clicksFun_single, if_pos ⟨hi1, by omega⟩]
    · intro i hi
      rw [clicksFun_single, if_neg (by omega)]
    · intro hlen i
      rw [clicksFun_single, if_neg (by omega)]

/-- Witness for `clicks_default_placement` at concrete sample indices. -/
theorem clicks_default_placement_witness :
    clicksFun 8000 (defaultClick 8000) 800 4801 [(1 : ℚ)/2] 4000 = defaultClick 8000 0
    ∧ clicksFun 8000 (defaultClick 8000) 800 4801 [(1 : ℚ)/2] 17 = 0 :=
  ⟨clicks_default_placement.2.1 0 (by norm_num),
    clicks_default_placement.1 17 (by norm_num)⟩

/-- C9.  When two click times map to overlapping sample ranges, the
later-processed click is written by slice assignment over the earlier
one: on every sample of the second click's range the buffer holds the
second click's values alone (prefix-shifted), not a sum or mix. -/
theorem clicks_overlap_overwrite (fs : ℕ) (ck : ℕ → ℝ) (ckLen len : ℕ) (t1 t2 : ℚ)
    (i : ℕ) (ht1 : 0 ≤ t1) (ht2 : 0 ≤ t2)
    (h1 : clickStart fs t1 + ckLen < len)
    (h2 : clickStart fs t2 ≤ i) (h3 : i < clickStart fs t2 + ckLen) (h4 : i < len) :
    clicksFun fs ck ckLen len [t1, t2] i = ck (i - clickStart fs t2) := by
  rw [clicksFun, placeClicks, if_neg (by omega), if_neg (by omega)]
  by_cases h5 : len ≤ clickStart fs t2
  · omega
  · by_cases h6 : len ≤ clickStart fs t2 + ckLen
    · rw [placeClicks, if_neg h5, if_pos h6, if_pos ⟨h2, h4⟩]
    · rw [placeClicks, if_neg h5, if_neg h6, placeClicks, if_pos ⟨h2, h3⟩]

/-- Witness for `clicks_overlap_overwrite` at a concrete input. -/
theorem clicks_overlap_overwrite_witness :
    clicksFun 1 (defaultClick 8000) 5 10 [0, 2] 4 = defaultClick 8000 2 := by
  have hs1 : clickStart 1 (0 : ℚ) = 0 := by norm_num [clickStart]
  have hs2 : clickStart 1 (2 : ℚ) = 2 := by norm_num [clickStart]
  have h := clicks_overlap_overwrite 1 (defaultClick 8000) 5 10 0 2 4 (le_refl 0)
    (by norm_num) (by rw [hs1]; norm_num) (by rw [hs2]; norm_num)
    (by rw [hs2]; norm_num) (by norm_num)
  rw [h, hs2]

/-! ### Claim theorems for `time_frequency` (C4, C7, C5, C2) -/

/-- The spec's interval count for the shape check: supplied intervals as
given; a 1-D timestamp sequence contributes its `M - 1` derived
consecutive intervals, plus one appended trailing interval exactly when
the derived count falls short of the gram's column count. -/
def specIntervalCount (tin : TimesInput) (cols : ℕ) : ℕ :=
  match tin with
  | .ivals v => v.length
  | .stamps ts => if ts.length - 1 < cols then (ts.length - 1) + 1 else ts.length - 1

lemma mixLoop_ne_shapeMismatch (φ : ℝ → ℝ) (ndec fs len : ℕ) :
    ∀ (fr : List ℚ) (sig : List (List ℚ)) (out : List ℝ),
      mixLoop φ ndec fs len fr sig out ≠ .error .shapeMismatch := by
  intro fr
  induction fr with
  | nil =>
    intro sig out h
    simp [mixLoop] at h
  | cons f fr ih =>
    intro sig out h
    cases sig with
    | nil => simp [mixLoop] at h
    | cons s sr =>
      simp only [mixLoop] at h
      split_ifs at h with hc
      · exact ih _ _ h
      · simp at h

lemma timeFrequency_eq_shape_iff (φ : ℝ → ℝ) (gram : List (List ℚ)) (freqs : List ℚ)
    (tin : TimesInput) (fs len ndec : ℕ) (thr : ℚ) :
    timeFrequency φ gram freqs tin fs len ndec thr = .error .shapeMismatch
      ↔ tfPre gram freqs tin fs len thr = .error .shapeMismatch := by
  rw [timeFrequency]
  split
  · rename_i e heq
    rw [heq]
    simp
  · rename_i heq
    rw [heq]
    simp
  · rename_i kf sig heq
    rw [heq]
    apply iff_of_false
    · intro h
      split at h
      · rename_i e hm
        have he : e = SonifyError.shapeMismatch := by simpa using h
        rw [he] at hm
        exact absurd hm (mixLoop_ne_shapeMismatch φ ndec fs len _ _ _)
      · split_ifs at h <;> simp at h
    · simp

lemma tfPre2_shape_iff (gram : List (List ℚ)) (freqs : List ℚ) (v : List (ℚ × ℚ))
    (fs len : ℕ) (thr : ℚ) :
    tfPre2 gram freqs v fs len thr = .error .shapeMismatch
      ↔ (v.length ≠ gcols gram ∨ freqs.length ≠ gram.length) := by
  rw [tfPre2]
  by_cases h1 : v.length ≠ gcols gram
  · rw [if_pos h1]
    simp [h1]
  · rw [if_neg h1]
    by_cases h2 : freqs.length ≠ gram.length
    · rw [if_pos h2]
      simp [h2]
    · rw [if_neg h2]
      apply iff_of_false
      · by_cases h3 : v = []
        · rw [if_pos h3]
          simp
        · rw [if_neg h3]
          simp
      · push_neg at h1 h2
        simp [h1, h2]

lemma tfPre_shape_iff (gram : List (List ℚ)) (freqs : List ℚ) (tin : TimesInput)
    (fs len : ℕ) (thr : ℚ)
    (hts : ∀ ts, tin = TimesInput.stamps ts → 2 ≤ ts.length) :
    tfPre gram freqs tin fs len thr = .error .shapeMismatch
      ↔ (specIntervalCount tin (gcols gram) ≠ gcols gram
          ∨ freqs.length ≠ gram.length) := by
  cases tin with
  | ivals v => exact tfPre2_shape_iff gram freqs v fs len thr
  | stamps ts =>
    have h2 := hts ts rfl
    have hzl : (toIvals ts).length = ts.length - 1 := by
      simp only [toIvals, List.length_zip, List.length_tail]
      omega
    have hne : toIvals ts ≠ [] := by
      intro h
      rw [h] at hzl
      simp only [List.length_nil] at hzl
      omega
    rw [tfPre]
    by_cases hd : (toIvals ts).length ≠ gcols gram
    · rw [if_pos hd, if_neg hne, tfPre2_shape_iff]
      rw [hzl] at hd
      simp only [List.length_append, hzl, List.length_cons, List.length_nil,
        specIntervalCount]
      refine or_congr ?_ Iff.rfl
      split_ifs with h'
      · exact Iff.rfl
      · constructor
        · intro _
          exact hd
        · intro _
          omega
    · rw [if_neg hd, tfPre2_shape_iff]
      push_neg at hd
      rw [hzl] at hd
      simp only [specIntervalCount, hzl, hd]
      simp

/-- C4 (amended).  For a timestamp sequence with at least two entries (so
the derived interval array is nonempty) or any 2-D interval input,
`time_frequency` raises its shape-compatibility `ValueError` exactly when
the interval count — after timestamp conversion and the conditional
trailing-interval pad the spec describes — differs from the gram's column
count, or the frequency count differs from the gram's row count; the
`Except` result models fail-fast with no partial output.  (A singleton
timestamp sequence is excluded: there the conversion yields an empty
interval array and `np.max(times)` raises numpy's empty-reduction error
before any shape check — see `tf_singleton_timestamps_crash`.) -/
theorem tf_shape_mismatch_iff (φ : ℝ → ℝ) (gram : List (List ℚ)) (freqs : List ℚ)
    (tin : TimesInput) (fs len ndec : ℕ) (thr : ℚ)
    (hts : ∀ ts, tin = TimesInput.stamps ts → 2 ≤ ts.length) :
    timeFrequency φ gram freqs tin fs len ndec thr = .error .shapeMismatch
      ↔ (specIntervalCount tin (gcols gram) ≠ gcols gram
          ∨ freqs.length ≠ gram.length) :=
  (timeFrequency_eq_shape_iff φ gram freqs tin fs len ndec thr).trans
    (tfPre_shape_iff gram freqs tin fs len thr hts)

/-- Witness for `tf_shape_mismatch_iff`: a three-timestamp input with a
three-column gram does not raise the shape error; making the frequency
count wrong raises it. -/
theorem tf_shape_mismatch_iff_witness :
    ¬ (timeFrequency Real.sin [[1, 2, 3]] [5] (.stamps [0, 1, 2]) 2 4 1 (1/100)
        = .error .shapeMismatch)
    ∧ timeFrequency Real.sin [[1, 2, 3]] [5, 6] (.stamps [0, 1, 2]) 2 4 1 (1/100)
        = .error .shapeMismatch := by
  constructor
  · intro h
    have hc := (tf_shape_mismatch_iff Real.sin [[1, 2, 3]] [5] (.stamps [0, 1, 2]) 2 4 1
      (1/100) (by rintro ts hh; cases hh; decide)).mp h
    revert hc
    decide
  · exact (tf_shape_mismatch_iff Real.sin [[1, 2, 3]] [5, 6] (.stamps [0, 1, 2]) 2 4 1
      (1/100) (by rintro ts hh; cases hh; decide)).mpr (by decide)

/-- C4 (counterexample to the claim as stated).  A timestamp sequence of
length 1 with a 1-column gram has timestamp count equal to the column
count, yet the call raises: the derived interval array is empty, so the
conditional padding's `np.max(times)` hits numpy's empty-reduction
`ValueError` before any shape logic — it does not return normally as the
claim's "does not raise" asserts. -/
theorem tf_singleton_timestamps_crash :
    timeFrequency Real.sin [[1]] [440] (.stamps [1/2]) 8000 100 1 (1/100)
      = .error .emptyReduction
    ∧ ([(1 : ℚ)/2] : List ℚ).length = gcols [[(1 : ℚ)]] := by
  constructor
  · rfl
  · rfl

lemma maskFilter_nil_left {α : Type} (r : List α) : maskFilter [] r = [] := rfl

lemma maskFilter_cons {α : Type} (b : Bool) (m : List Bool) (x : α) (r : List α) :
    maskFilter (b :: m) (x :: r) = if b then x :: maskFilter m r else maskFilter m r := by
  cases b <;> simp [maskFilter, List.zip_cons_cons, List.filter_cons]

lemma maskFilter_append {α : Type} :
    ∀ (m1 : List Bool) (r1 : List α) (m2 : List Bool) (r2 : List α),
      m1.length = r1.length →
      maskFilter (m1 ++ m2) (r1 ++ r2) = maskFilter m1 r1 ++ maskFilter m2 r2 := by
  intro m1
  induction m1 with
  | nil =>
    intro r1 m2 r2 h
    cases r1 with
    | nil => simp [maskFilter_nil_left]
    | cons x r1 => simp at h
  | cons b m1 ih =>
    intro r1 m2 r2 h
    cases r1 with
    | nil => simp at h
    | cons x r1 =>
      simp only [List.cons_append, maskFilter_cons, ih r1 m2 r2 (by simpa using h)]
      cases b <;> simp

lemma mem_maskFilter {α : Type} {m : List Bool} {r : List α} {x : α}
    (h : x ∈ maskFilter m r) : x ∈ r := by
  obtain ⟨p, hp, rfl⟩ := List.mem_map.mp h
  exact (List.of_mem_zip (List.mem_of_mem_filter hp)).2

lemma maskFilter_all_false {α : Type} {m : List Bool} (r : List α)
    (h : ∀ b ∈ m, b = false) : maskFilter m r = [] := by
  unfold maskFilter
  rw [List.filter_eq_nil_iff.mpr, List.map_nil]
  rintro ⟨b, x⟩ hp
  have hb := h b (List.of_mem_zip hp).1
  simp [hb]

lemma rowMax_cons (x : ℚ) (l : List ℚ) : rowMax (x :: l) = max x (rowMax l) := rfl

lemma rowMax_eq_zero : ∀ {r : List ℚ}, (∀ x ∈ r, x = 0) → rowMax r = 0 := by
  intro r
  induction r with
  | nil => intro _; rfl
  | cons x l ih =>
    intro h
    rw [rowMax_cons, h x (by simp), ih (fun y hy => h y (by simp [hy]))]
    simp

/-- If no supplied interval survives the overlap filter, every entry of a
gram row that makes it through the column filter comes from a silence-pad
column and is zero. -/
lemma row_after_filter_zero (lastT tmin tmax : ℚ) (v : List (ℚ × ℚ)) (r : List ℚ)
    (hlen : v.length = r.length)
    (hfail : ∀ p ∈ v, survives lastT p = false) :
    ∀ x ∈ maskFilter ((stackIvals lastT tmin tmax v).map (survives lastT))
        (padRow lastT tmin tmax r), x = 0 := by
  intro x hx
  unfold stackIvals padRow at hx
  rw [List.map_append, List.map_append] at hx
  rw [maskFilter_append _ _ _ _ (by
    rw [List.length_append, List.length_append, List.length_map, List.length_map, hlen]
    split_ifs <;> rfl)] at hx
  rw [maskFilter_append _ _ _ _ (by
    rw [List.length_map]
    split_ifs <;> rfl)] at hx
  have hmid : maskFilter (v.map (survives lastT)) r = [] := by
    apply maskFilter_all_false
    intro b hb
    obtain ⟨p, hp, rfl⟩ := List.mem_map.mp hb
    exact hfail p hp
  rcases List.mem_append.mp hx with hx' | hx'
  · rcases List.mem_append.mp hx' with hx'' | hx''
    · have := mem_maskFilter hx''
      revert this
      split_ifs <;> simp_all
    · rw [hmid] at hx''
      cases hx''
  · have := mem_maskFilter hx'
    revert this
    split_ifs <;> simp_all

lemma tfBody_no_overlap (gram : List (List ℚ)) (freqs : List ℚ) (v : List (ℚ × ℚ))
    (fs len : ℕ) (thr : ℚ) (hthr : 0 < thr)
    (huniform : ∀ r ∈ gram, r.length = gcols gram)
    (hcols : v.length = gcols gram)
    (hfail : ∀ p ∈ v, survives (lastTimeQ fs len) p = false) :
    tfBody gram freqs v fs len thr = none
    ∨ ∃ sig, tfBody gram freqs v fs len thr = some ([], sig) := by
  simp only [tfBody]
  split_ifs with h0
  · exact Or.inl rfl
  · right
    have hkept : ((gram.map (fun r =>
        (maskFilter ((stackIvals (lastTimeQ fs len) (listMinD (ivalVals v))
              (listMaxD (ivalVals v)) v).map (survives (lastTimeQ fs len)))
          (padRow (lastTimeQ fs len) (listMinD (ivalVals v)) (listMaxD (ivalVals v)) r)).map
          (fun x => max x 0))).zip freqs).filter
        (fun pr => decide (thr ≤ rowMax pr.1)) = [] := by
      apply List.filter_eq_nil_iff.mpr
      rintro ⟨row, f⟩ hp
      have hrow := (List.of_mem_zip hp).1
      obtain ⟨r, hr, rfl⟩ := List.mem_map.mp hrow
      have hzero : ∀ x ∈ (maskFilter ((stackIvals (lastTimeQ fs len)
          (listMinD (ivalVals v)) (listMaxD (ivalVals v)) v).map
            (survives (lastTimeQ fs len)))
          (padRow (lastTimeQ fs len) (listMinD (ivalVals v)) (listMaxD (ivalVals v)) r)).map
            (fun x => max x 0), x = 0 := by
        intro x hx
        obtain ⟨y, hy, rfl⟩ := List.mem_map.mp hx
        rw [row_after_filter_zero (lastTimeQ fs len) (listMinD (ivalVals v))
          (listMaxD (ivalVals v)) v r (by rw [hcols, huniform r hr]) hfail y hy]
        simp
      have hmax0 := rowMax_eq_zero hzero
      simp only [hmax0, decide_eq_true_eq]
      exact fun hc => absurd (hc.trans_lt hthr).false (by simp)
    rw [hkept]
    exact ⟨_, rfl⟩

lemma maxAbs_nil : maxAbs [] = 0 := rfl

lemma maxAbs_cons (x : ℝ) (l : List ℝ) : maxAbs (x :: l) = max |x| (maxAbs l) := rfl

lemma maxAbs_replicate_zero (n : ℕ) : maxAbs (List.replicate n (0 : ℝ)) = 0 := by
  induction n with
  | zero => rfl
  | succ n ih => rw [List.replicate_succ, maxAbs_cons, ih, abs_zero, max_self]

lemma normalizeBuf_replicate_zero (n : ℕ) :
    normalizeBuf (List.replicate n (0 : ℝ)) = List.replicate n 0 := by
  rw [normalizeBuf, maxAbs_replicate_zero]
  simp

/-- C7.  When no supplied interval overlaps `[0, length/fs]` (every
interval ends before 0 or starts after `length/fs`), `time_frequency`
returns an all-zero buffer of exactly `len` samples and raises no error:
either no interval at all survives (the early return), or only the
silence-pad columns survive, no frequency row reaches the positive
threshold, and the mixing loop leaves the zero buffer untouched. -/
theorem tf_no_surviving_interval_zero (φ : ℝ → ℝ) (gram : List (List ℚ))
    (freqs : List ℚ) (v : List (ℚ × ℚ)) (fs len ndec : ℕ) (thr : ℚ)
    (hfs : 0 < fs) (hlen : 0 < len) (hthr : 0 < thr) (hv : v ≠ [])
    (hcols : v.length = gcols gram) (hrows : freqs.length = gram.length)
    (huniform : ∀ r ∈ gram, r.length = gcols gram)
    (hmiss : ∀ p ∈ v, p.2 < 0 ∨ lastTimeQ fs len < p.1) :
    timeFrequency φ gram freqs (.ivals v) fs len ndec thr
      = .ok (List.replicate len 0) := by
  have hfail : ∀ p ∈ v, survives (lastTimeQ fs len) p = false := by
    intro p hp
    rcases hmiss p hp with h | h
    · simp [survives, not_le.mpr h]
    · simp [survives, not_le.mpr h]
  have hpre : tfPre gram freqs (.ivals v) fs len thr
      = .ok (tfBody gram freqs v fs len thr) := by
    show tfPre2 gram freqs v fs len thr = _
    rw [tfPre2, if_neg (by simp [hcols]), if_neg (by simp [hrows]),
      if_neg (by simpa using hv)]
  have hne : (List.replicate len (0 : ℝ)).isEmpty = false := by
    cases len with
    | zero => omega
    | succ n => rfl
  rcases tfBody_no_overlap gram freqs v fs len thr hthr huniform hcols hfail with
    hb | ⟨sig, hb⟩
  · rw [timeFrequency, hpre, hb]
  · rw [timeFrequency, hpre, hb]
    simp only [mixLoop, hne, Bool.false_eq_true, if_false, normalizeBuf_replicate_zero]

/-- Witness for `tf_no_surviving_interval_zero` at a concrete input. -/
theorem tf_no_surviving_interval_zero_witness :
    timeFrequency Real.sin [[1, 2]] [3] (.ivals [(-2, -1), (2, 3)]) 1 1 1 (1/100)
      = .ok (List.replicate 1 0) := by
  apply tf_no_surviving_interval_zero Real.sin [[1, 2]] [3] [(-2, -1), (2, 3)] 1 1 1 (1/100)
    (by norm_num) (by norm_num) (by norm_num) (by simp) (by rfl) (by rfl)
  · intro r hr
    simp at hr
    rw [hr]
    rfl
  · intro p hp
    simp at hp
    rcases hp with hp | hp <;> rw [hp] <;> norm_num [lastTimeQ]

lemma maxAbs_nonneg (l : List ℝ) : 0 ≤ maxAbs l := by
  induction l with
  | nil => exact le_refl 0
  | cons x l ih => exact le_max_of_le_right ih

lemma le_maxAbs : ∀ {l : List ℝ} {x : ℝ}, x ∈ l → |x| ≤ maxAbs l := by
  intro l
  induction l with
  | nil => intro x hx; cases hx
  | cons y l ih =>
    intro x hx
    rcases List.mem_cons.mp hx with rfl | hx'
    · exact le_max_left _ _
    · exact (ih hx').trans (le_max_right _ _)

lemma maxAbs_eq_zero_all {l : List ℝ} (h : maxAbs l = 0) : ∀ x ∈ l, x = 0 := by
  intro x hx
  have hle := le_maxAbs hx
  rw [h] at hle
  exact abs_nonpos_iff.mp hle

lemma maxAbs_map_div {c : ℝ} (hc : 0 < c) :
    ∀ (l : List ℝ), maxAbs (l.map (fun x => x / c)) = maxAbs l / c := by
  intro l
  induction l with
  | nil => simp [maxAbs_nil]
  | cons x l ih =>
    rw [List.map_cons, maxAbs_cons, maxAbs_cons, ih, abs_div, abs_of_pos hc,
      max_div_div_right hc.le]

lemma maxAbs_le_one {l : List ℝ} (h : ∀ x ∈ l, |x| ≤ 1) : maxAbs l ≤ 1 := by
  induction l with
  | nil => norm_num [maxAbs_nil]
  | cons x l ih =>
    rw [maxAbs_cons]
    exact max_le (h x (by simp)) (ih (fun y hy => h y (by simp [hy])))

/-- C2 (amended).  Every successful `time_frequency` result either has
peak `max |output| = 1` (this happens whenever the mixed buffer has a
positive peak, which is then divided out) or is identically zero; in
either case every sample lies in `[-1, 1]`.  A kept row above threshold
does not by itself force peak 1: the mixed buffer can still be
identically zero (see `tf_peak_law_counterexample`). -/
theorem tf_peak_normalization (φ : ℝ → ℝ) (gram : List (List ℚ)) (freqs : List ℚ)
    (tin : TimesInput) (fs len ndec : ℕ) (thr : ℚ) (out : List ℝ)
    (h : timeFrequency φ gram freqs tin fs len ndec thr = .ok out) :
    (maxAbs out = 1 ∨ ∀ x ∈ out, x = 0) ∧ ∀ x ∈ out, |x| ≤ 1 := by
  rw [timeFrequency] at h
  split at h
  · exact absurd h (by simp)
  · have hout : out = List.replicate len 0 := (Except.ok.inj h).symm
    subst hout
    constructor
    · right
      intro x hx
      exact List.eq_of_mem_replicate hx
    · intro x hx
      rw [List.eq_of_mem_replicate hx]
      simp
  · split at h
    · exact absurd h (by simp)
    · rename_i m hm
      split_ifs at h with hE
      have hout : out = normalizeBuf m := (Except.ok.inj h).symm
      subst hout
      rw [normalizeBuf]
      split_ifs with hpos
      · constructor
        · left
          rw [maxAbs_map_div hpos, div_self hpos.ne']
        · intro x hx
          obtain ⟨y, hy, rfl⟩ := List.mem_map.mp hx
          rw [abs_div, abs_of_pos hpos]
          exact (div_le_one hpos).mpr (le_maxAbs hy)
      · have h0 : maxAbs m = 0 := le_antisymm (not_lt.mp hpos) (maxAbs_nonneg m)
        constructor
        · right
          exact maxAbs_eq_zero_all h0
        · intro x hx
          rw [maxAbs_eq_zero_all h0 x hx]
          simp

/-- Witness for `tf_peak_normalization` on a concrete successful call. -/
theorem tf_peak_normalization_witness :
    maxAbs ((timeFrequency (fun _ => (0 : ℝ)) [[1]] [1] (.ivals [((0 : ℚ), 1/2)])
      2 1 1 (1/100)).toOption.getD []) ≤ 1 := by
  have wz : ∀ i, waveSample (fun _ => (0 : ℝ)) 1 2 1 i = 0 := by
    intro i
    rw [waveSample, shortCycle_getD (fun _ => (0 : ℝ)) 1 2 1
      (Nat.mod_lt _ (by norm_num [cycleLen]))]
  have h : timeFrequency (fun _ => (0 : ℝ)) [[1]] [1] (.ivals [((0 : ℚ), 1/2)])
      2 1 1 (1/100) = .ok (normalizeBuf [0]) := by
    norm_num [timeFrequency, tfPre, tfPre2, tfBody, gcols, lastTimeQ, ivalVals, listMinD,
      listMaxD, stackIvals, survives, clipIval, padRow, maskFilter, rowMax, tfSignal,
      List.filter_cons, List.zip_cons_cons, List.replicate, mixLoop, periodOf, convSame,
      convFull, List.range_succ, wz]
  rw [h]
  show maxAbs (normalizeBuf [0]) ≤ 1
  exact maxAbs_le_one
    ((tf_peak_normalization (fun _ => (0 : ℝ)) [[1]] [1] (.ivals [((0 : ℚ), 1/2)])
      2 1 1 (1/100) (normalizeBuf [0]) h).2)

/-- C2 (counterexample to the claim as stated).  With the default
`function=np.sin`, a kept frequency row at the Nyquist frequency
(`f = 1`, `fs = 2`, magnitude `1 ≥ threshold`) synthesizes
`sin(π·i) = 0` at every sample, so the mixed buffer is identically zero,
the guarded normalization is skipped, and the returned peak is `0`, not
`1` — a kept row above threshold does not imply `max |output| = 1`. -/
theorem tf_peak_law_counterexample :
    tfPre [[1]] [1] (.ivals [((0 : ℚ), 1)]) 2 2 (1/100) = .ok (some ([1], [[1, 1]]))
    ∧ maxAbs ((timeFrequency Real.sin [[1]] [1] (.ivals [((0 : ℚ), 1)])
        2 2 1 (1/100)).toOption.getD []) ≠ 1 := by
  have hnp : npRound 1 1 = 1 := by
    norm_num [npRound, roundHalfEven]
  have w0 : waveSample Real.sin 1 2 1 0 = 0 := by
    rw [waveSample, shortCycle_getD Real.sin 1 2 1 (by norm_num [cycleLen])]
    norm_num
  have w1 : waveSample Real.sin 1 2 1 1 = 0 := by
    rw [waveSample, shortCycle_getD Real.sin 1 2 1 (by norm_num [cycleLen])]
    rw [hnp]
    have hmod : (1 % cycleLen 1 2 : ℕ) = 1 := by norm_num [cycleLen]
    rw [hmod]
    have harg : 2 * π * ((1 : ℕ) : ℝ) * ((1 : ℚ) : ℝ) / ((2 : ℕ) : ℝ) = π := by
      push_cast
      ring
    rw [harg, Real.sin_pi]
  constructor
  · norm_num [tfPre, tfPre2, tfBody, gcols, lastTimeQ, ivalVals, listMinD, listMaxD,
      stackIvals, survives, clipIval, padRow, maskFilter, rowMax, tfSignal,
      List.filter_cons, List.zip_cons_cons, List.replicate]
  · have h : timeFrequency Real.sin [[1]] [1] (.ivals [((0 : ℚ), 1)]) 2 2 1 (1/100)
        = .ok (normalizeBuf [0, 0]) := by
      norm_num [timeFrequency, tfPre, tfPre2, tfBody, gcols, lastTimeQ, ivalVals,
        listMinD, listMaxD, stackIvals, survives, clipIval, padRow, maskFilter, rowMax,
        tfSignal, List.filter_cons, List.zip_cons_cons, List.replicate, mixLoop,
        periodOf, convSame, convFull, List.range_succ, w0, w1]
    rw [h]
    show maxAbs (normalizeBuf [(0 : ℝ), 0]) ≠ 1
    have hm0 : maxAbs [(0 : ℝ), 0] = 0 := by
      simp [maxAbs_cons, maxAbs_nil]
    rw [normalizeBuf, hm0]
    simp [hm0]

/-- C5 (evaluation of the code at the failing input).  With a single
surviving interval and two kept frequency rows, the workaround
`signal = np.tile(gram[:, 0], (1, length))` builds one row of
`R·length = 4` samples instead of `R` rows of `length = 2` samples, so
the first mixing iteration attempts to add a 4-sample envelope into the
2-sample output and the call raises (numpy broadcast error) instead of
holding each row's single magnitude for `length` samples. -/
theorem tf_single_interval_multirow_error :
    timeFrequency Real.sin [[1], [1]] [1, 1] (.ivals [((0 : ℚ), 1)]) 2 2 1 (1/100)
      = .error .broadcastError := by
  norm_num [timeFrequency, tfPre, tfPre2, tfBody, gcols, lastTimeQ, ivalVals, listMinD,
    listMaxD, stackIvals, survives, clipIval, padRow, maskFilter, rowMax, tfSignal,
    List.filter_cons, List.zip_cons_cons, List.replicate, mixLoop, periodOf, convSame,
    convFull, List.range_succ]
